import Mathlib

/-!
Verification development for the telegram-video-ai-bot webhook orchestrator
(`src/server.ts`).  The definitions below are shallow embeddings of the
functions of the source file: pure string manipulation is embedded as Lean
functions on `String`/`List Char`, the SQLite tables as lists of rows with
the `INSERT OR REPLACE` conflict semantics made explicit, and the webhook
handler's effectful control flow as a function producing a trace of effects.
-/

set_option maxHeartbeats 1000000

namespace TgBot

/-- The backtick character, written by its code point. -/
def btick : Char := Char.ofNat 96

/-- Boolean test that `pre` is an initial segment of `l`. -/
def startsWithL : List Char → List Char → Bool
  | [], _ => true
  | _ :: _, [] => false
  | a :: as, b :: bs => a == b && startsWithL as bs

/-- Boolean substring test on character lists, mirroring JavaScript
`String.includes` (and the searching done by a global regex replace). -/
def containsSub (needle : List Char) : List Char → Bool
  | [] => needle.isEmpty
  | c :: rest => startsWithL needle (c :: rest) || containsSub needle rest

/-- `OccursIn pat l` says that `pat` occurs contiguously inside `l`. -/
def OccursIn (pat l : List Char) : Prop := ∃ s t, l = s ++ pat ++ t

theorem startsWithL_iff (n : List Char) : ∀ l, startsWithL n l = true ↔ ∃ t, l = n ++ t := by
  induction n with
  | nil => intro l; simp [startsWithL]
  | cons a as ih =>
    intro l
    cases l with
    | nil => simp [startsWithL]
    | cons b bs =>
      simp only [startsWithL, Bool.and_eq_true, beq_iff_eq, ih bs]
      constructor
      · rintro ⟨rfl, t, rfl⟩; exact ⟨t, rfl⟩
      · rintro ⟨t, h⟩
        injection h with h1 h2
        exact ⟨h1.symm, t, h2⟩

theorem containsSub_iff (n : List Char) : ∀ l, containsSub n l = true ↔ OccursIn n l := by
  intro l
  induction l with
  | nil =>
    simp only [containsSub, OccursIn]
    constructor
    · intro h
      have : n = [] := by
        cases n with
        | nil => rfl
        | cons a as => simp [List.isEmpty] at h
      exact ⟨[], [], by simp [this]⟩
    · rintro ⟨s, t, h⟩
      have hs : s = [] := by cases s <;> simp_all
      have hn : n = [] := by
        subst hs; simp at h
        rcases h with ⟨h1, _⟩
        cases n <;> simp_all
      simp [hn, List.isEmpty]
  | cons c rest ih =>
    simp only [containsSub, Bool.or_eq_true, startsWithL_iff, ih, OccursIn]
    constructor
    · rintro (⟨t, h⟩ | ⟨s, t, h⟩)
      · exact ⟨[], t, by simpa using h⟩
      · exact ⟨c :: s, t, by simp [h]⟩
    · rintro ⟨s, t, h⟩
      cases s with
      | nil => exact Or.inl ⟨t, by simpa using h⟩
      | cons x xs =>
        injection h with h1 h2
        exact Or.inr ⟨xs, t, h2⟩

/-! ### The `mdv2` preprocessor (server.ts lines 11-17)

`mdv2` first removes a leading "```markdown" marker (the anchored regex
replace), then deletes every occurrence of "```" (the global regex replace,
a single left-to-right scan of the original string), and finally hands the
remainder to the external `telegramify-markdown` escaper. -/

/-- The marker deleted by the anchored replace of `mdv2`. -/
def mdMarker : List Char := btick :: btick :: btick :: "markdown".toList

/-- The anchored replace `s.replace(/^```markdown/, "")`. -/
def stripLeadingMdFence (l : List Char) : List Char :=
  if startsWithL mdMarker l then l.drop mdMarker.length else l

/-- The global replace `.replace(/```/g, "")`: a left-to-right scan of the
original string, removing each occurrence of three backticks and continuing
after it. -/
def removeFences : List Char → List Char
  | a :: b :: c :: rest =>
    if a = btick ∧ b = btick ∧ c = btick then removeFences rest
    else a :: removeFences (b :: c :: rest)
  | a :: rest => a :: removeFences rest
  | [] => []

/-- The in-repository part of `mdv2`: both regex replaces, before the text
is handed to the external escaper. -/
def stripFences (s : String) : String :=
  String.mk (removeFences (stripLeadingMdFence s.toList))

/-- `mdv2` itself; the external `telegramifyMarkdown(-, "escape")` call is a
parameter, since that library is an external collaborator. -/
def mdv2 (tgEscape : String → String) (s : String) : String :=
  tgEscape (stripFences s)

/-- The text field of the payload built by `sendTelegramMessage`. -/
def sendMessageText (tgEscape : String → String) (text : String) : String :=
  mdv2 tgEscape text

/-- The text field of the payload built by `editTelegramMessage`. -/
def editMessageText (tgEscape : String → String) (text : String) : String :=
  mdv2 tgEscape text

theorem removeFences_cons_ne (a : Char) (l : List Char) (ha : a ≠ btick) :
    removeFences (a :: l) = a :: removeFences l := by
  cases l with
  | nil => simp [removeFences]
  | cons b l' =>
    cases l' with
    | nil => simp [removeFences]
    | cons c l'' =>
      rw [removeFences, if_neg]
      rintro ⟨h, -⟩
      exact ha h

theorem removeFences_two_tick_free (l : List Char)
    (h : startsWithL (btick :: btick :: []) l = false) :
    startsWithL (btick :: btick :: []) (removeFences l) = false := by
  cases l with
  | nil => simp [removeFences, startsWithL]
  | cons x m =>
    cases m with
    | nil => simp [removeFences, startsWithL]
    | cons y m' =>
      by_cases hx : x = btick
      · subst hx
        have hy : y ≠ btick := by
          intro hy; subst hy
          simp [startsWithL] at h
        have hout : ∃ t, removeFences (btick :: y :: m') = btick :: y :: t := by
          cases m' with
          | nil =>
            refine ⟨removeFences [], ?_⟩
            rw [show removeFences (btick :: y :: []) = btick :: removeFences (y :: []) by
                  simp [removeFences],
                removeFences_cons_ne y [] hy]
          | cons z m'' =>
            rw [removeFences, if_neg (by rintro ⟨-, h2, -⟩; exact hy h2),
                removeFences_cons_ne y (z :: m'') hy]
            exact ⟨removeFences (z :: m''), rfl⟩
        obtain ⟨t, ht⟩ := hout
        rw [ht]
        simp [startsWithL, hy, Ne.symm hy]
      · rw [removeFences_cons_ne x (y :: m') hx]
        simp [startsWithL, hx, Ne.symm hx]

theorem removeFences_noFence :
    ∀ l, containsSub (btick :: btick :: btick :: []) (removeFences l) = false := by
  intro l
  induction l using removeFences.induct with
  | case1 a b c rest hcond ih =>
    obtain ⟨rfl, rfl, rfl⟩ := hcond
    rw [removeFences, if_pos ⟨rfl, rfl, rfl⟩]
    exact ih
  | case2 a b c rest hcond ih =>
    rw [removeFences, if_neg hcond]
    simp only [containsSub, Bool.or_eq_false_iff]
    refine ⟨?_, ih⟩
    by_cases ha : a = btick
    · subst ha
      have hbc : startsWithL (btick :: btick :: []) (b :: c :: rest) = false := by
        by_cases hb : b = btick
        · subst hb
          have hc : c ≠ btick := fun hc => hcond ⟨rfl, rfl, hc⟩
          simp [startsWithL, hc, Ne.symm hc]
        · simp [startsWithL, hb, Ne.symm hb]
      have := removeFences_two_tick_free (b :: c :: rest) hbc
      simp only [startsWithL, beq_self_eq_true, Bool.true_and]
      exact this
    · simp [startsWithL, ha, Ne.symm ha]
  | case3 a rest hshape ih =>
    have hrest : removeFences (a :: rest) = a :: removeFences rest := by
      cases rest with
      | nil => simp [removeFences]
      | cons b m =>
        cases m with
        | nil => simp [removeFences]
        | cons c m' => exact absurd rfl (hshape b c m')
    rw [hrest]
    simp only [containsSub, Bool.or_eq_false_iff]
    refine ⟨?_, ih⟩
    cases rest with
    | nil => simp [removeFences, startsWithL]
    | cons b m =>
      cases m with
      | nil =>
        have : removeFences [b] = [b] := by simp [removeFences]
        simp [this, startsWithL]
      | cons c m' => exact absurd rfl (hshape b c m')
  | case4 => simp [removeFences, containsSub, List.isEmpty]

/-! ### Quota-error classification (server.ts lines 299-307) -/

/-- `isQuotaError`: the lower-cased failure message (lower-casing maps each
character, as `toLowerCase` does) is searched for the four markers "quota",
"exceed", "429", "rate". -/
def isQuotaError (msg : String) : Bool :=
  let m := msg.toList.map Char.toLower
  containsSub "quota".toList m || containsSub "exceed".toList m ||
    containsSub "429".toList m || containsSub "rate".toList m

/-! ### Credential store (api_keys table, server.ts lines 106-129, 309-328)

The `api_keys` table has one row per configured key (`api_key` is UNIQUE).
Timestamps (`datetime('now')`) are modelled as naturals; the SQL comparison
of datetime strings is monotone in time. -/

structure ApiKeyRow where
  api_key : String
  usage_count : Nat
  last_used : Option Nat
deriving DecidableEq

/-- The sort key of `ORDER BY last_used IS NULL DESC, last_used ASC,
usage_count ASC`: rows with NULL `last_used` first, then by `last_used`,
then by `usage_count`. -/
def selKey (r : ApiKeyRow) : Nat × Nat × Nat :=
  (match r.last_used with | none => 0 | some _ => 1,
   match r.last_used with | none => 0 | some t => t,
   r.usage_count)

/-- Strict lexicographic comparison of sort keys. -/
def keyLT (a b : Nat × Nat × Nat) : Prop :=
  a.1 < b.1 ∨ (a.1 = b.1 ∧ (a.2.1 < b.2.1 ∨ (a.2.1 = b.2.1 ∧ a.2.2 < b.2.2)))

instance (a b : Nat × Nat × Nat) : Decidable (keyLT a b) := by
  unfold keyLT; infer_instance

/-- The row returned by the `SELECT ... ORDER BY ... LIMIT 1`: a minimal row
in the sort order (the earliest such row, as a deterministic choice among
full ties, which SQL leaves unspecified). -/
def pickMin : List ApiKeyRow → Option ApiKeyRow
  | [] => none
  | r :: rest =>
    match pickMin rest with
    | none => some r
    | some b => if keyLT (selKey b) (selKey r) then some b else some r

/-- The effect of `UPDATE api_keys SET usage_count = usage_count + 1,
last_used = datetime('now') WHERE api_key = ?` on one matching row. -/
def bumpRow (now : Nat) (r : ApiKeyRow) : ApiKeyRow :=
  { r with usage_count := r.usage_count + 1, last_used := some now }

/-- `getNextApiKey`: with no configured keys, returns `null` and leaves the
table unchanged; with configured keys but an empty table, falls back to the
first configured key without touching the table; otherwise returns the
minimal row's key and, by the `UPDATE ... WHERE api_key = ?`, bumps
`usage_count` and stamps `last_used` on every row carrying that key. -/
def getNextApiKey (cfg : List String) (now : Nat) (rows : List ApiKeyRow) :
    Option String × List ApiKeyRow :=
  if cfg.length = 0 then (none, rows)
  else
    match pickMin rows with
    | none => (some (cfg.headD ""), rows)
    | some row =>
      (some row.api_key,
       rows.map fun r => if r.api_key == row.api_key then bumpRow now r else r)

/-- The table after one selection. -/
def selectStep (cfg : List String) (now : Nat) (rows : List ApiKeyRow) : List ApiKeyRow :=
  (getNextApiKey cfg now rows).2

/-- The table after `k` successive selections at strictly increasing clock
values `t0, t0 + 1, ...` (successive `datetime('now')` reads with no ties). -/
def selectMany (cfg : List String) : Nat → Nat → List ApiKeyRow → List ApiKeyRow
  | _, 0, rows => rows
  | t0, k + 1, rows => selectMany cfg (t0 + 1) k (selectStep cfg t0 rows)

theorem keyLT_irrefl (a : Nat × Nat × Nat) : ¬ keyLT a a := by
  unfold keyLT; omega

theorem keyLT_asymm {a b : Nat × Nat × Nat} (h : keyLT a b) : ¬ keyLT b a := by
  unfold keyLT at *; omega

theorem not_keyLT_trans {a b c : Nat × Nat × Nat}
    (h1 : ¬ keyLT b a) (h2 : ¬ keyLT c b) : ¬ keyLT c a := by
  unfold keyLT at *; omega

theorem pickMin_eq_none (rows : List ApiKeyRow) : pickMin rows = none ↔ rows = [] := by
  cases rows with
  | nil => simp [pickMin]
  | cons r rest =>
    constructor
    · intro h
      exfalso
      cases hrest : pickMin rest with
      | none => simp [pickMin, hrest] at h
      | some b =>
        by_cases hlt : keyLT (selKey b) (selKey r) <;>
          simp [pickMin, hrest, hlt] at h
    · intro h; simp at h

theorem pickMin_mem : ∀ (rows : List ApiKeyRow) (p : ApiKeyRow),
    pickMin rows = some p → p ∈ rows := by
  intro rows
  induction rows with
  | nil => intro p hp; simp [pickMin] at hp
  | cons r rest ih =>
    intro p hp
    cases h : pickMin rest with
    | none =>
      simp only [pickMin, h, Option.some.injEq] at hp
      subst hp
      exact List.mem_cons_self _ _
    | some b =>
      by_cases hlt : keyLT (selKey b) (selKey r)
      · simp only [pickMin, h, if_pos hlt, Option.some.injEq] at hp
        subst hp
        exact List.mem_cons_of_mem _ (ih b h)
      · simp only [pickMin, h, if_neg hlt, Option.some.injEq] at hp
        subst hp
        exact List.mem_cons_self _ _

theorem pickMin_min : ∀ (rows : List ApiKeyRow) (p : ApiKeyRow),
    pickMin rows = some p → ∀ r ∈ rows, ¬ keyLT (selKey r) (selKey p) := by
  intro rows
  induction rows with
  | nil => intro p hp; simp [pickMin] at hp
  | cons r rest ih =>
    intro p hp r' hr'
    cases h : pickMin rest with
    | none =>
      have hrest : rest = [] := (pickMin_eq_none rest).mp h
      subst hrest
      simp only [pickMin, Option.some.injEq] at hp
      subst hp
      rcases List.mem_cons.mp hr' with rfl | hmem
      · exact keyLT_irrefl _
      · simp at hmem
    | some b =>
      by_cases hlt : keyLT (selKey b) (selKey r)
      · simp only [pickMin, h, if_pos hlt, Option.some.injEq] at hp
        subst hp
        rcases List.mem_cons.mp hr' with rfl | hmem
        · exact keyLT_asymm hlt
        · exact ih _ h r' hmem
      · simp only [pickMin, h, if_neg hlt, Option.some.injEq] at hp
        subst hp
        rcases List.mem_cons.mp hr' with rfl | hmem
        · exact keyLT_irrefl _
        · exact not_keyLT_trans hlt (ih b h r' hmem)

/-- The selection order as the spec phrases it: a NULL `last_used` is
preferred over any timestamp, then smaller `last_used`, then smaller
`usage_count`. -/
def credLE (p r : ApiKeyRow) : Prop :=
  match p.last_used, r.last_used with
  | none, some _ => True
  | none, none => p.usage_count ≤ r.usage_count
  | some _, none => False
  | some a, some b => a < b ∨ (a = b ∧ p.usage_count ≤ r.usage_count)

theorem not_keyLT_iff_credLE (p r : ApiKeyRow) :
    ¬ keyLT (selKey r) (selKey p) ↔ credLE p r := by
  cases hp : p.last_used <;> cases hr : r.last_used <;>
    simp [selKey, keyLT, credLE, hp, hr] <;> omega

/-- Claim C7: credential selection returns a credential minimal in the
order (NULL `last_used` preferred, then smallest `last_used`, then smallest
`usage_count`); the same selection bumps exactly that credential's
`usage_count` by one and stamps its `last_used` with the current time; with
zero configured credentials it fails immediately without touching the
table. -/
theorem claim_C7 (cfg : List String) (now : Nat) (rows : List ApiKeyRow)
    (hnodup : (rows.map ApiKeyRow.api_key).Nodup) :
    (cfg = [] → getNextApiKey cfg now rows = (none, rows)) ∧
    (cfg ≠ [] → rows ≠ [] →
      ∃ p l₁ l₂, rows = l₁ ++ p :: l₂ ∧
        (getNextApiKey cfg now rows).1 = some p.api_key ∧
        (∀ r ∈ rows, credLE p r) ∧
        (getNextApiKey cfg now rows).2 =
          l₁ ++ { p with usage_count := p.usage_count + 1,
                         last_used := some now } :: l₂) := by
  constructor
  · rintro rfl; simp [getNextApiKey]
  · intro hcfg hrows
    have hlen : ¬ cfg.length = 0 := fun h => hcfg (List.length_eq_zero.mp h)
    obtain ⟨p, hp⟩ : ∃ p, pickMin rows = some p := by
      cases h : pickMin rows with
      | none => exact absurd ((pickMin_eq_none rows).mp h) hrows
      | some p => exact ⟨p, rfl⟩
    have hmem := pickMin_mem rows p hp
    obtain ⟨l₁, l₂, hsplit⟩ := List.append_of_mem hmem
    subst hsplit
    have hmin : ∀ r ∈ l₁ ++ p :: l₂, credLE p r := fun r hr =>
      (not_keyLT_iff_credLE p r).mp (pickMin_min _ p hp r hr)
    have hkeys : p.api_key ∉ l₁.map ApiKeyRow.api_key ∧
        p.api_key ∉ l₂.map ApiKeyRow.api_key := by
      rw [List.map_append, List.map_cons, List.nodup_middle, List.nodup_cons] at hnodup
      have := hnodup.1
      rw [List.mem_append] at this
      exact ⟨fun h => this (Or.inl h), fun h => this (Or.inr h)⟩
    refine ⟨p, l₁, l₂, rfl, ?_, hmin, ?_⟩
    · simp [getNextApiKey, hp, hlen]
    · simp only [getNextApiKey, hp, if_neg hlen]
      rw [List.map_append, List.map_cons]
      congr 1
      · refine (List.map_congr_left ?_).trans (List.map_id l₁)
        intro r hr
        have hne : r.api_key ≠ p.api_key := by
          intro h
          exact hkeys.1 (h ▸ List.mem_map_of_mem ApiKeyRow.api_key hr)
        simp [hne]
      · congr 1
        · simp [bumpRow]
        · refine (List.map_congr_left ?_).trans (List.map_id l₂)
          intro r hr
          have hne : r.api_key ≠ p.api_key := by
            intro h
            exact hkeys.2 (h ▸ List.mem_map_of_mem ApiKeyRow.api_key hr)
          simp [hne]

/-- Witness for claim C7 at a concrete two-credential table. -/
theorem claim_C7_witness :
    ((["k1", "k2"] : List String) = [] →
      getNextApiKey ["k1", "k2"] 5 [⟨"k1", 0, none⟩, ⟨"k2", 0, none⟩] =
        (none, [⟨"k1", 0, none⟩, ⟨"k2", 0, none⟩])) ∧
    ((["k1", "k2"] : List String) ≠ [] →
      ([⟨"k1", 0, none⟩, ⟨"k2", 0, none⟩] : List ApiKeyRow) ≠ [] →
      ∃ p l₁ l₂,
        ([⟨"k1", 0, none⟩, ⟨"k2", 0, none⟩] : List ApiKeyRow) = l₁ ++ p :: l₂ ∧
        (getNextApiKey ["k1", "k2"] 5 [⟨"k1", 0, none⟩, ⟨"k2", 0, none⟩]).1 =
          some p.api_key ∧
        (∀ r ∈ ([⟨"k1", 0, none⟩, ⟨"k2", 0, none⟩] : List ApiKeyRow), credLE p r) ∧
        (getNextApiKey ["k1", "k2"] 5 [⟨"k1", 0, none⟩, ⟨"k2", 0, none⟩]).2 =
          l₁ ++ { p with usage_count := p.usage_count + 1,
                         last_used := some 5 } :: l₂) :=
  claim_C7 ["k1", "k2"] 5 [⟨"k1", 0, none⟩, ⟨"k2", 0, none⟩] (by decide)

/-! ### Fairness of the rotation (claim C9 machinery) -/

/-- `q` was used strictly earlier than `r`: a never-used row counts as
earliest, and a used row is never older than a never-used one. -/
def Older (q r : ApiKeyRow) : Prop :=
  match q.last_used, r.last_used with
  | none, some _ => True
  | some a, some b => a < b
  | _, _ => False

theorem older_keyLT {q r : ApiKeyRow} (h : Older q r) :
    keyLT (selKey q) (selKey r) := by
  cases hq : q.last_used <;> cases hr : r.last_used <;>
    simp only [Older, hq, hr] at h <;> simp [selKey, keyLT, hq, hr] <;> omega

/-- Invariant of the credential table under fair rotation: every
`usage_count` lies in a band of width one, rows on the high count are
strictly newer than rows on the low count, and every stamp is below
`bound`. -/
structure RotInv (bound c : Nat) (rows : List ApiKeyRow) : Prop where
  counts : ∀ r ∈ rows, r.usage_count = c ∨ r.usage_count = c + 1
  order : ∀ r ∈ rows, ∀ q ∈ rows, r.usage_count = c + 1 → q.usage_count = c → Older q r
  stamps : ∀ r ∈ rows, ∀ u, r.last_used = some u → u < bound

theorem rotInv_mono (t c : Nat) (rows : List ApiKeyRow) (h : RotInv t c rows) :
    RotInv (t + 1) c rows :=
  ⟨h.counts, h.order, fun r hr u hu => Nat.lt_succ_of_lt (h.stamps r hr u hu)⟩

theorem rotInv_norm (t c : Nat) (rows : List ApiKeyRow) (h : RotInv t c rows) :
    (∃ r ∈ rows, r.usage_count = c) ∨ RotInv t (c + 1) rows := by
  by_cases hex : ∃ r ∈ rows, r.usage_count = c
  · exact Or.inl hex
  · push_neg at hex
    refine Or.inr ⟨?_, ?_, h.stamps⟩
    · intro r hr
      rcases h.counts r hr with h1 | h1
      · exact absurd h1 (hex r hr)
      · exact Or.inl h1
    · intro r hr q hq hr1 hq1
      exfalso
      rcases h.counts r hr with h1 | h1 <;> omega

theorem rotInv_norm' (t c : Nat) (rows : List ApiKeyRow) (hne : rows ≠ [])
    (hinv : RotInv t c rows) :
    ∃ d, (∃ r ∈ rows, r.usage_count = d) ∧ RotInv t d rows := by
  by_cases hex : ∃ r ∈ rows, r.usage_count = c
  · exact ⟨c, hex, hinv⟩
  · rcases rotInv_norm t c rows hinv with h | h
    · exact absurd h hex
    · obtain ⟨r0, hr0⟩ := List.exists_mem_of_ne_nil rows hne
      refine ⟨c + 1, ⟨r0, hr0, ?_⟩, h⟩
      rcases hinv.counts r0 hr0 with h1 | h1
      · exact absurd ⟨r0, hr0, h1⟩ hex
      · exact h1

theorem rotInv_step (cfg : List String) (t c : Nat) (rows : List ApiKeyRow)
    (hnodup : (rows.map ApiKeyRow.api_key).Nodup)
    (hlow : ∃ r ∈ rows, r.usage_count = c)
    (hinv : RotInv t c rows) :
    RotInv (t + 1) c (selectStep cfg t rows) ∧
      ((selectStep cfg t rows).map ApiKeyRow.api_key).Nodup := by
  by_cases hcfg : cfg.length = 0
  · have heq : selectStep cfg t rows = rows := by
      simp [selectStep, getNextApiKey, hcfg]
    rw [heq]
    exact ⟨rotInv_mono t c rows hinv, hnodup⟩
  · cases hp : pickMin rows with
    | none =>
      obtain ⟨r, hr, -⟩ := hlow
      rw [(pickMin_eq_none rows).mp hp] at hr
      simp at hr
    | some p =>
      have hstep : selectStep cfg t rows =
          rows.map (fun r => if r.api_key == p.api_key then bumpRow t r else r) := by
        simp [selectStep, getNextApiKey, hp, hcfg]
      have hpmem := pickMin_mem rows p hp
      have hfix : ∀ r ∈ rows, r ≠ p →
          (if r.api_key == p.api_key then bumpRow t r else r) = r := by
        intro r hr hne
        have hk : r.api_key ≠ p.api_key := fun h =>
          hne (List.inj_on_of_nodup_map hnodup hr hpmem h)
        simp [hk]
      have hbump : (if p.api_key == p.api_key then bumpRow t p else p) = bumpRow t p := by
        simp
      have hpc : p.usage_count = c := by
        by_contra hne
        rcases hinv.counts p hpmem with h1 | h1
        · exact hne h1
        · obtain ⟨q, hq, hqc⟩ := hlow
          exact pickMin_min rows p hp q hq
            (older_keyLT (hinv.order p hpmem q hq h1 hqc))
      constructor
      · rw [hstep]
        refine ⟨?_, ?_, ?_⟩
        · intro x hx
          rw [List.mem_map] at hx
          obtain ⟨r, hr, rfl⟩ := hx
          by_cases hrp : r = p
          · subst hrp; rw [hbump]; simp [bumpRow, hpc]
          · rw [hfix r hr hrp]; exact hinv.counts r hr
        · intro x hx y hy hx1 hy1
          rw [List.mem_map] at hx hy
          obtain ⟨r, hr, rfl⟩ := hx
          obtain ⟨q, hq, rfl⟩ := hy
          by_cases hqp : q = p
          · subst hqp
            rw [hbump] at hy1
            simp [bumpRow] at hy1
            omega
          · rw [hfix q hq hqp] at hy1 ⊢
            by_cases hrp : r = p
            · subst hrp
              rw [hbump]
              simp only [Older, bumpRow]
              cases hql : q.last_used with
              | none => simp
              | some a =>
                simp only []
                exact hinv.stamps q hq a hql
            · rw [hfix r hr hrp] at hx1 ⊢
              exact hinv.order r hr q hq hx1 hy1
        · intro x hx u hu
          rw [List.mem_map] at hx
          obtain ⟨r, hr, rfl⟩ := hx
          by_cases hrp : r = p
          · subst hrp
            rw [hbump] at hu
            simp [bumpRow] at hu
            omega
          · rw [hfix r hr hrp] at hu
            exact Nat.lt_succ_of_lt (hinv.stamps r hr u hu)
      · rw [hstep, List.map_map]
        have hcomp : (ApiKeyRow.api_key ∘
            fun r => if r.api_key == p.api_key then bumpRow t r else r) =
            ApiKeyRow.api_key := by
          funext r
          by_cases h : r.api_key = p.api_key <;> simp [h, bumpRow]
        rw [hcomp]
        exact hnodup

theorem selectMany_nil (cfg : List String) :
    ∀ (t0 K : Nat), selectMany cfg t0 K [] = [] := by
  intro t0 K
  induction K generalizing t0 with
  | zero => simp [selectMany]
  | succ k ih =>
    have hstep : selectStep cfg t0 [] = [] := by
      by_cases h : cfg.length = 0 <;> simp [selectStep, getNextApiKey, h, pickMin]
    simp [selectMany, hstep, ih]

theorem rotInv_selectMany (cfg : List String) :
    ∀ (K t0 c : Nat) (rows : List ApiKeyRow),
      (rows.map ApiKeyRow.api_key).Nodup → RotInv t0 c rows →
      ∃ c', RotInv (t0 + K) c' (selectMany cfg t0 K rows) := by
  intro K
  induction K with
  | zero =>
    intro t0 c rows _ hinv
    exact ⟨c, by simpa [selectMany] using hinv⟩
  | succ k ih =>
    intro t0 c rows hnodup hinv
    by_cases hne : rows = []
    · subst hne
      refine ⟨c, ?_⟩
      rw [selectMany_nil]
      exact ⟨fun r hr => absurd hr (List.not_mem_nil r),
             fun r hr => absurd hr (List.not_mem_nil r),
             fun r hr => absurd hr (List.not_mem_nil r)⟩
    · obtain ⟨d, hlow, hinv'⟩ := rotInv_norm' t0 c rows hne hinv
      obtain ⟨hstep, hnodup'⟩ := rotInv_step cfg t0 d rows hnodup hlow hinv'
      obtain ⟨c', hc'⟩ := ih (t0 + 1) d _ hnodup' hstep
      refine ⟨c', ?_⟩
      have harith : t0 + (k + 1) = (t0 + 1) + k := by omega
      rw [harith]
      simpa [selectMany] using hc'

/-- Claim C9: starting from all credentials with equal `usage_count` and
all stamps in the past, after any `K` selections at strictly increasing
clock values (no timestamp ties) with `K` at least the number of configured
credentials, any two credentials' `usage_count` values differ by at most
one. -/
theorem claim_C9 (cfg : List String) (rows : List ApiKeyRow) (t0 c0 K : Nat)
    (hcfg : cfg ≠ []) (hK : cfg.length ≤ K)
    (hnodup : (rows.map ApiKeyRow.api_key).Nodup)
    (hcounts : ∀ r ∈ rows, r.usage_count = c0)
    (hstamps : ∀ r ∈ rows, ∀ u, r.last_used = some u → u < t0) :
    ∀ r ∈ selectMany cfg t0 K rows, ∀ q ∈ selectMany cfg t0 K rows,
      r.usage_count ≤ q.usage_count + 1 := by
  have hinv : RotInv t0 c0 rows := by
    refine ⟨fun r hr => Or.inl (hcounts r hr), ?_, hstamps⟩
    intro r hr q hq hr1 hq1
    exfalso
    have := hcounts r hr
    omega
  obtain ⟨c', hc'⟩ := rotInv_selectMany cfg K t0 c0 rows hnodup hinv
  intro r hr q hq
  rcases hc'.counts r hr with h1 | h1 <;> rcases hc'.counts q hq with h2 | h2 <;> omega

/-- Witness for claim C9: two fresh credentials, two selections; the two
rows of the resulting table have counts within one of each other. -/
theorem claim_C9_witness :
    (⟨"k1", 1, some 10⟩ : ApiKeyRow).usage_count ≤
      (⟨"k2", 1, some 11⟩ : ApiKeyRow).usage_count + 1 :=
  claim_C9 ["k1", "k2"] [⟨"k1", 0, none⟩, ⟨"k2", 0, none⟩] 10 0 2
    (by decide) (by decide) (by decide) (by decide)
    (by intro r hr u hu; fin_cases hr <;> simp_all)
    ⟨"k1", 1, some 10⟩ (by decide) ⟨"k2", 1, some 11⟩ (by decide)

/-! ### Analysis step (server.ts lines 330-442) -/

/-- The model variants tried for each credential. -/
def modelsToTry : List String := ["gemini-2.5-flash"]

inductive ModelsOut where
  | ok (r : String)
  | fatal (e : String)
  | exhausted (lastErr : Option String)
deriving DecidableEq

/-- The inner loop over model variants: on success return immediately; on a
quota-classified failure record it as the last error and try the next
variant; on any other failure abort with that failure. -/
def tryModels (call : String → Except String String) :
    List String → Option String → ModelsOut
  | [], lastErr => .exhausted lastErr
  | m :: rest, lastErr =>
    match call m with
    | .ok r => .ok r
    | .error e => if isQuotaError e then tryModels call rest (some e) else .fatal e

/-- The outer loop over credential attempts.  `callAt i k m` is the outcome
of the analysis-service call on attempt `i` with key `k` and model `m`
(the external call, an oracle); `times i` is the clock at the `i`-th
credential selection.  The returned `Nat` is the total number of credential
selections (`getNextApiKey` invocations) performed. -/
def geminiLoop (cfg : List String) (models : List String)
    (callAt : Nat → String → String → Except String String) (times : Nat → Nat) :
    Nat → Nat → Option String → List ApiKeyRow →
      Except String String × Nat × List ApiKeyRow
  | 0, i, lastErr, rows =>
    (.error (lastErr.getD "Gemini analysis failed: all API keys exhausted"), i, rows)
  | fuel + 1, i, lastErr, rows =>
    match getNextApiKey cfg (times i) rows with
    | (none, rows') => (.error "No API key available", i + 1, rows')
    | (some k, rows') =>
      match tryModels (callAt i k) models lastErr with
      | .ok r => (.ok r, i + 1, rows')
      | .fatal e => (.error e, i + 1, rows')
      | .exhausted lastErr' =>
        geminiLoop cfg models callAt times fuel (i + 1) lastErr' rows'

/-- `analyzeVideoWithGemini`'s control skeleton: fail at once when no key is
configured, otherwise run up to `maxKeyRetries = cfg.length` credential
rounds over the model variants. -/
def analyzeVideoWithGemini (cfg : List String)
    (callAt : Nat → String → String → Except String String) (times : Nat → Nat)
    (rows : List ApiKeyRow) : Except String String × Nat × List ApiKeyRow :=
  if cfg.length = 0 then (.error "GEMINI_API_KEY not configured", 0, rows)
  else geminiLoop cfg modelsToTry callAt times cfg.length 0 none rows

theorem getNextApiKey_fst_some (cfg : List String) (hcfg : ¬ cfg.length = 0)
    (now : Nat) (rows : List ApiKeyRow) :
    ∃ k, (getNextApiKey cfg now rows).1 = some k := by
  simp only [getNextApiKey, if_neg hcfg]
  cases pickMin rows <;> simp

theorem getNextApiKey_pair (cfg : List String) (hcfg : ¬ cfg.length = 0)
    (now : Nat) (rows : List ApiKeyRow) :
    ∃ k, getNextApiKey cfg now rows = (some k, (getNextApiKey cfg now rows).2) := by
  obtain ⟨k, hk⟩ := getNextApiKey_fst_some cfg hcfg now rows
  exact ⟨k, by rw [← hk]⟩

theorem loop_step_ok (cfg : List String)
    (callAt : Nat → String → String → Except String String) (times : Nat → Nat)
    (hcfg : ¬ cfg.length = 0) (fuel i : Nat) (lastErr : Option String)
    (rows : List ApiKeyRow) (r : String)
    (hcall : ∀ k, callAt i k "gemini-2.5-flash" = .ok r) :
    geminiLoop cfg modelsToTry callAt times (fuel + 1) i lastErr rows =
      (.ok r, i + 1, (getNextApiKey cfg (times i) rows).2) := by
  obtain ⟨k, hpair⟩ := getNextApiKey_pair cfg hcfg (times i) rows
  rw [geminiLoop, hpair]
  simp [tryModels, modelsToTry, hcall k]

theorem loop_step_fatal (cfg : List String)
    (callAt : Nat → String → String → Except String String) (times : Nat → Nat)
    (hcfg : ¬ cfg.length = 0) (fuel i : Nat) (lastErr : Option String)
    (rows : List ApiKeyRow) (e : String)
    (hcall : ∀ k, callAt i k "gemini-2.5-flash" = .error e)
    (hq : isQuotaError e = false) :
    geminiLoop cfg modelsToTry callAt times (fuel + 1) i lastErr rows =
      (.error e, i + 1, (getNextApiKey cfg (times i) rows).2) := by
  obtain ⟨k, hpair⟩ := getNextApiKey_pair cfg hcfg (times i) rows
  rw [geminiLoop, hpair]
  simp [tryModels, modelsToTry, hcall k, hq]

theorem loop_step_quota (cfg : List String)
    (callAt : Nat → String → String → Except String String) (times : Nat → Nat)
    (hcfg : ¬ cfg.length = 0) (fuel i : Nat) (lastErr : Option String)
    (rows : List ApiKeyRow) (e : String)
    (hcall : ∀ k, callAt i k "gemini-2.5-flash" = .error e)
    (hq : isQuotaError e = true) :
    geminiLoop cfg modelsToTry callAt times (fuel + 1) i lastErr rows =
      geminiLoop cfg modelsToTry callAt times fuel (i + 1) (some e)
        (getNextApiKey cfg (times i) rows).2 := by
  obtain ⟨k, hpair⟩ := getNextApiKey_pair cfg hcfg (times i) rows
  rw [geminiLoop, hpair]
  simp [tryModels, modelsToTry, hcall k, hq]

theorem loop_skip (cfg : List String)
    (callAt : Nat → String → String → Except String String) (times : Nat → Nat)
    (hcfg : ¬ cfg.length = 0) (E : Nat → String)
    (hq : ∀ t, isQuotaError (E t) = true) :
    ∀ (j fuel i : Nat) (lastErr : Option String) (rows : List ApiKeyRow),
      j ≤ fuel →
      (∀ t, t < j → ∀ k, callAt (i + t) k "gemini-2.5-flash" = .error (E (i + t))) →
      ∃ rows' lastErr',
        geminiLoop cfg modelsToTry callAt times fuel i lastErr rows =
          geminiLoop cfg modelsToTry callAt times (fuel - j) (i + j) lastErr' rows' ∧
        (j = 0 → lastErr' = lastErr) ∧
        (0 < j → lastErr' = some (E (i + j - 1))) := by
  intro j
  induction j with
  | zero =>
    intro fuel i lastErr rows _ _
    exact ⟨rows, lastErr, by simp, fun _ => rfl, by omega⟩
  | succ n ih =>
    intro fuel i lastErr rows hle hcall
    obtain ⟨f, rfl⟩ : ∃ f, fuel = f + 1 := ⟨fuel - 1, by omega⟩
    have hstep := loop_step_quota cfg callAt times hcfg f i lastErr rows (E i)
      (by have := hcall 0 (Nat.succ_pos n); simpa using this) (hq i)
    obtain ⟨rows', lastErr', heq, h0, hpos⟩ :=
      ih f (i + 1) (some (E i)) (getNextApiKey cfg (times i) rows).2
        (by omega)
        (by intro t ht k
            have := hcall (t + 1) (by omega) k
            rw [show i + 1 + t = i + (t + 1) by omega]
            exact this)
    refine ⟨rows', lastErr', ?_, by omega, ?_⟩
    · have h1 : f + 1 - (n + 1) = f - n := by omega
      have h2 : i + (n + 1) = i + 1 + n := by omega
      rw [hstep, heq, h1, h2]
    · intro _
      rcases Nat.eq_zero_or_pos n with rfl | hn
      · rw [h0 rfl]
        have harg : i + (0 + 1) - 1 = i := by omega
        rw [harg]
      · rw [hpos hn]
        have harg : i + 1 + n - 1 = i + (n + 1) - 1 := by omega
        rw [harg]

/-- Claim C1: the Analysis Step's retry policy.  With `N ≥ 1` configured
credentials: when every attempt fails quota-classified it performs exactly
`N` credential selections and throws the last observed error; when an
attempt succeeds after a quota-failing prefix it returns that result with
no further selections; when an attempt fails non-quota after a
quota-failing prefix it throws that error with no further selections. -/
theorem claim_C1 (cfg : List String)
    (callAt : Nat → String → String → Except String String) (times : Nat → Nat)
    (rows : List ApiKeyRow) (hcfg : cfg ≠ []) :
    ((∀ E : Nat → String, (∀ t, isQuotaError (E t) = true) →
      (∀ t k m, callAt t k m = .error (E t)) →
      (analyzeVideoWithGemini cfg callAt times rows).1 = .error (E (cfg.length - 1)) ∧
      (analyzeVideoWithGemini cfg callAt times rows).2.1 = cfg.length)) ∧
    (∀ (j : Nat) (r : String) (E : Nat → String), j < cfg.length →
      (∀ t, isQuotaError (E t) = true) →
      (∀ t, t < j → ∀ k m, callAt t k m = .error (E t)) →
      (∀ k m, callAt j k m = .ok r) →
      (analyzeVideoWithGemini cfg callAt times rows).1 = .ok r ∧
      (analyzeVideoWithGemini cfg callAt times rows).2.1 = j + 1) ∧
    (∀ (j : Nat) (e : String) (E : Nat → String), j < cfg.length →
      (∀ t, isQuotaError (E t) = true) →
      (∀ t, t < j → ∀ k m, callAt t k m = .error (E t)) →
      (∀ k m, callAt j k m = .error e) → isQuotaError e = false →
      (analyzeVideoWithGemini cfg callAt times rows).1 = .error e ∧
      (analyzeVideoWithGemini cfg callAt times rows).2.1 = j + 1) := by
  have hlen : ¬ cfg.length = 0 := fun h => hcfg (List.length_eq_zero.mp h)
  have hone : 1 ≤ cfg.length := Nat.pos_of_ne_zero hlen
  have hana : analyzeVideoWithGemini cfg callAt times rows =
      geminiLoop cfg modelsToTry callAt times cfg.length 0 none rows := by
    simp [analyzeVideoWithGemini, hlen]
  refine ⟨?_, ?_, ?_⟩
  · intro E hqE hcall
    obtain ⟨rows', lastErr', heq, -, hpos⟩ :=
      loop_skip cfg callAt times hlen E hqE cfg.length cfg.length 0 none rows
        le_rfl (fun t _ k => hcall (0 + t) k _)
    have hz : cfg.length - cfg.length = 0 := by omega
    have ha : 0 + cfg.length - 1 = cfg.length - 1 := by omega
    have hb : 0 + cfg.length = cfg.length := by omega
    rw [hana, heq, hpos hone, hz, ha, hb]
    simp [geminiLoop]
  · intro j r E hj hqE hcall hok
    obtain ⟨rows', lastErr', heq, -, -⟩ :=
      loop_skip cfg callAt times hlen E hqE j cfg.length 0 none rows
        (Nat.le_of_lt hj) (fun t ht k => hcall (0 + t) (by omega) k _)
    obtain ⟨d, hd⟩ : ∃ d, cfg.length - j = d + 1 := ⟨cfg.length - j - 1, by omega⟩
    rw [hana, heq, hd,
        loop_step_ok cfg callAt times hlen d (0 + j) lastErr' rows' r
          (fun k => by simpa using hok k "gemini-2.5-flash")]
    simp
  · intro j e E hj hqE hcall herr hqe
    obtain ⟨rows', lastErr', heq, -, -⟩ :=
      loop_skip cfg callAt times hlen E hqE j cfg.length 0 none rows
        (Nat.le_of_lt hj) (fun t ht k => hcall (0 + t) (by omega) k _)
    obtain ⟨d, hd⟩ : ∃ d, cfg.length - j = d + 1 := ⟨cfg.length - j - 1, by omega⟩
    rw [hana, heq, hd,
        loop_step_fatal cfg callAt times hlen d (0 + j) lastErr' rows' e
          (fun k => by simpa using herr k "gemini-2.5-flash") hqe]
    simp

/-- Witness for claim C1: one credential whose only attempt fails with a
quota-classified error leads to one selection and that error rethrown. -/
theorem claim_C1_witness :
    (analyzeVideoWithGemini ["k1"] (fun _ _ _ => .error "quota hit")
      (fun t => t) []).1 = .error "quota hit" ∧
    (analyzeVideoWithGemini ["k1"] (fun _ _ _ => .error "quota hit")
      (fun t => t) []).2.1 = 1 :=
  (claim_C1 ["k1"] (fun _ _ _ => .error "quota hit") (fun t => t) []
      (by decide)).1
    (fun _ => "quota hit")
    (fun _ => by show isQuotaError "quota hit" = true; decide)
    (fun _ _ _ => rfl)

/-- Claim C8: a failure is classified quota/rate-limit if and only if its
lower-cased message contains "quota", "exceed", "429" or "rate"; a failure
not so classified aborts the Analysis Step at once (non-retryable). -/
theorem claim_C8 :
    (∀ msg : String, isQuotaError msg = true ↔
      ∃ kw ∈ (["quota", "exceed", "429", "rate"] : List String),
        OccursIn kw.toList (msg.toList.map Char.toLower)) ∧
    (∀ (cfg : List String)
      (callAt : Nat → String → String → Except String String)
      (times : Nat → Nat) (rows : List ApiKeyRow) (e : String),
      cfg ≠ [] → isQuotaError e = false →
      (∀ t k m, callAt t k m = .error e) →
      (analyzeVideoWithGemini cfg callAt times rows).1 = .error e ∧
      (analyzeVideoWithGemini cfg callAt times rows).2.1 = 1) := by
  constructor
  · intro msg
    simp only [isQuotaError, Bool.or_eq_true, containsSub_iff]
    constructor
    · rintro (((h | h) | h) | h)
      · exact ⟨"quota", by simp, h⟩
      · exact ⟨"exceed", by simp, h⟩
      · exact ⟨"429", by simp, h⟩
      · exact ⟨"rate", by simp, h⟩
    · rintro ⟨kw, hkw, h⟩
      simp only [List.mem_cons, List.not_mem_nil, or_false] at hkw
      rcases hkw with rfl | rfl | rfl | rfl
      · exact Or.inl (Or.inl (Or.inl h))
      · exact Or.inl (Or.inl (Or.inr h))
      · exact Or.inl (Or.inr h)
      · exact Or.inr h
  · intro cfg callAt times rows e hcfg hq hcall
    have hlen : ¬ cfg.length = 0 := fun h => hcfg (List.length_eq_zero.mp h)
    obtain ⟨d, hd⟩ : ∃ d, cfg.length = d + 1 := ⟨cfg.length - 1, by omega⟩
    have hana : analyzeVideoWithGemini cfg callAt times rows =
        geminiLoop cfg modelsToTry callAt times cfg.length 0 none rows := by
      simp [analyzeVideoWithGemini, hlen]
    rw [hana, hd, loop_step_fatal cfg callAt times hlen d 0 none rows e
        (fun k => hcall 0 k _) hq]
    simp

/-- Witness for claim C8: a realistic 429 message is classified quota, and a
non-quota failure aborts after exactly one credential selection. -/
theorem claim_C8_witness :
    (isQuotaError "Resource exhausted: 429 Too Many Requests" = true ↔
      ∃ kw ∈ (["quota", "exceed", "429", "rate"] : List String),
        OccursIn kw.toList
          ("Resource exhausted: 429 Too Many Requests".toList.map Char.toLower)) ∧
    ((analyzeVideoWithGemini ["k1"] (fun _ _ _ => .error "boom")
        (fun t => t) []).1 = .error "boom" ∧
      (analyzeVideoWithGemini ["k1"] (fun _ _ _ => .error "boom")
        (fun t => t) []).2.1 = 1) :=
  ⟨claim_C8.1 _,
   claim_C8.2 ["k1"] (fun _ _ _ => .error "boom") (fun t => t) [] "boom"
     (by decide) (by decide) (fun _ _ _ => rfl)⟩

/-- Claim C10: every outbound chat message and edit passes its text through
`mdv2`, which removes a leading "```markdown" marker and deletes every
occurrence of "```" before escaping; the preprocessed text contains no
fence marker, so fenced code blocks are stripped, not preserved (and remain
absent through any escaper that introduces no fence of its own). -/
theorem claim_C10 (tgEscape : String → String) (s : String) :
    sendMessageText tgEscape s = tgEscape (stripFences s) ∧
    editMessageText tgEscape s = tgEscape (stripFences s) ∧
    ¬ OccursIn (btick :: btick :: btick :: []) (stripFences s).toList ∧
    ((∀ u : String, ¬ OccursIn (btick :: btick :: btick :: []) u.toList →
        ¬ OccursIn (btick :: btick :: btick :: []) (tgEscape u).toList) →
      ¬ OccursIn (btick :: btick :: btick :: []) (mdv2 tgEscape s).toList) := by
  have hstrip : ¬ OccursIn (btick :: btick :: btick :: []) (stripFences s).toList := by
    intro h
    have hb := (containsSub_iff _ _).mpr h
    rw [show (stripFences s).toList = removeFences (stripLeadingMdFence s.toList)
          from rfl,
        removeFences_noFence] at hb
    exact Bool.false_ne_true hb
  exact ⟨rfl, rfl, hstrip, fun hesc => hesc _ hstrip⟩

/-- Witness for claim C10 on a fenced model answer with the identity
escaper. -/
theorem claim_C10_witness :
    ¬ OccursIn (btick :: btick :: btick :: [])
      (mdv2 id "```markdown\n**video** summary ``` done ``").toList :=
  (claim_C10 id "```markdown\n**video** summary ``` done ``").2.2.2
    (fun _ h => h)

/-! ### The downloads table (server.ts lines 77-105)

`downloads` has a UNIQUE NOT NULL `message_id` and a unique index on `url`
(SQL NULLs never conflict with each other).  All writes go through
`INSERT OR REPLACE`, which deletes every existing row conflicting with the
new row on either unique key and then inserts the new row. -/

structure DRow where
  message_id : Nat
  file_path : Option String
  status : String
  url : Option String
deriving DecidableEq

/-- Conflict on either unique key: equal `message_id`, or equal non-NULL
`url`. -/
def conflicts (q r : DRow) : Bool :=
  q.message_id == r.message_id ||
    (match q.url, r.url with
     | some a, some b => a == b
     | _, _ => false)

/-- `INSERT OR REPLACE INTO downloads ...`. -/
def insertOrReplace (t : List DRow) (r : DRow) : List DRow :=
  t.filter (fun q => !conflicts q r) ++ [r]

/-- `SELECT ... FROM downloads WHERE url = ?`. -/
def lookupByUrl (t : List DRow) (u : String) : Option DRow :=
  t.find? (fun r => r.url == some u)

/-- `SELECT ... FROM downloads WHERE message_id = ?`. -/
def lookupByMsg (t : List DRow) (m : Nat) : Option DRow :=
  t.find? (fun r => r.message_id == m)

/-! ### URL extraction (server.ts lines 134-138) -/

/-- One position of the regex `https?:\/\/\S+`: a match starts here when the
text begins with a scheme followed by at least one more non-space character;
the match is the maximal run of non-space characters. -/
def urlFrom (l : List Char) : Option (List Char) :=
  let run := l.takeWhile (fun c => !c.isWhitespace)
  if (startsWithL "http://".toList l ∧ 7 < run.length) ∨
      (startsWithL "https://".toList l ∧ 8 < run.length) then
    some run
  else none

/-- The leftmost regex match, scanning positions left to right. -/
def findUrl : List Char → Option (List Char)
  | [] => none
  | c :: rest =>
    match urlFrom (c :: rest) with
    | some run => some run
    | none => findUrl rest

/-- A character stripped from the end of the match (`[)>\]]+$`). -/
def isCloser (c : Char) : Bool := c = ')' || c = '>' || c = ']'

def stripTrailing (cs : List Char) : List Char :=
  (cs.reverse.dropWhile isCloser).reverse

/-- `extractFirstUrl`: first URL-looking token, trailing brackets
stripped. -/
def extractFirstUrl (s : String) : Option String :=
  (findUrl s.toList).map (fun run => String.mk (stripTrailing run))

/-! ### The webhook handler (server.ts lines 448-730)

The handler is embedded as a function from the inbound event and the
outcomes of the external calls (status send, download, metadata fetch,
analysis, file deletion) to the ordered list of effects it performs, the
final downloads table, and whether the heartbeat interval is still live
when the handler's own work has finished.  Artifact-file writes (the saved
markdown and its sidecar) are outside the traced effects. -/

structure Meta where
  title : Option String
  description : Option String
deriving DecidableEq

/-- `Array.join("\n")`-style concatenation. -/
def joinSep (sep : String) : List String → String
  | [] => ""
  | [x] => x
  | x :: xs => x ++ sep ++ joinSep sep xs

/-- The final message text of the success path (lines 667-681): the
analysis text followed by a Source Context block with optional title,
the URL, and an optionally truncated description. -/
def buildFinalText (gemini url : String) (meta : Option Meta) : String :=
  let rawDesc := match meta with | some mt => mt.description | none => none
  let descShort :=
    match rawDesc with
    | some d =>
      some (if 600 < d.length then String.mk (d.toList.take 600) ++ "\n..." else d)
    | none => none
  let metaLines :=
    ["", "**Source Context**"] ++
      (match meta with
       | some mt => match mt.title with | some ti => ["**Title:** " ++ ti] | none => []
       | none => []) ++
      ["**URL:** " ++ url] ++
      (match descShort with
       | some d => ["**Description:**\n" ++ d]
       | none => [])
  gemini ++ "\n\n" ++ joinSep "\n" metaLines

/-- One observable effect of the handler. -/
inductive Ev where
  | ack
  | send (text : String) (replyTo : Option Nat) (callbackData : Option String)
  | edit (messageId : Nat) (text : String)
  | answerCb (text : Option String)
  | dbWrite (r : DRow)
  | download (url : String)
  | analyze
  | setIntervalEv
  | clearIntervalEv
  | unlinkAttempt (p : String)
  | logOnly (tag : String)
deriving DecidableEq

structure HandlerOut where
  trace : List Ev
  table : List DRow
  intervalLive : Bool
deriving DecidableEq

/-- The message-event path once a fresh job is to be run (lines 598-727):
status send, Job row at "downloading", download; on download success a Job
row at "done", the waiting edit plus heartbeat interval, the analysis, the
terminal edit (result or analysis-failure notice) and the cleanup `finally`;
on download failure a Job row at "failed" written without its `url` and a
failure reply.  `clearIntervalEv` is emitted only on the success branch
(line 666); the catch branch cannot clear the interval, so after an analysis
failure the interval stays live. -/
def mainPath (table : List DRow) (m : Nat) (url : String) (tmpDir : String)
    (statusMessageId : Option Nat) (downloadOk : Bool)
    (analysisResult : Except String String) (metaRes : Option Meta)
    (unlinkOk : Bool) : HandlerOut :=
  let filename := Nat.repr m ++ ".mp4"
  let ev0 := [Ev.send "⏳ **Downloading video...**" (some m) none]
  let rowDownloading : DRow := ⟨m, some filename, "downloading", some url⟩
  let t1 := insertOrReplace table rowDownloading
  let ev1 := ev0 ++ [Ev.dbWrite rowDownloading, Ev.download url]
  if downloadOk then
    let savedPath := tmpDir ++ "/" ++ filename
    let rowDone : DRow := ⟨m, some filename, "done", some url⟩
    let t2 := insertOrReplace t1 rowDone
    let ev2 := ev1 ++ [Ev.dbWrite rowDone]
    let evWait :=
      match statusMessageId with
      | some sid => [Ev.edit sid "⏳ **Waiting for AI analysis...**  ", Ev.setIntervalEv]
      | none => []
    let evUnlink := Ev.unlinkAttempt savedPath ::
      (if unlinkOk then [] else [Ev.logOnly "deleteError"])
    match analysisResult with
    | .ok gemini =>
      let finalText := buildFinalText gemini url metaRes
      let evFin :=
        match statusMessageId with
        | some sid => [Ev.clearIntervalEv, Ev.edit sid finalText]
        | none => [Ev.send finalText none none]
      ⟨ev2 ++ evWait ++ [Ev.analyze] ++ evFin ++ evUnlink ++ [Ev.ack], t2, false⟩
    | .error _ =>
      let evFail :=
        match statusMessageId with
        | some sid => [Ev.edit sid "❌ **Failed to analyze video with AI.**"]
        | none => [Ev.send "❌ **Failed to analyze video with AI.**" none none]
      ⟨ev2 ++ evWait ++ [Ev.analyze] ++ evFail ++ evUnlink ++ [Ev.ack], t2,
        statusMessageId.isSome⟩
  else
    let rowFailed : DRow := ⟨m, some filename, "failed", none⟩
    ⟨ev1 ++ [Ev.dbWrite rowFailed,
        Ev.send "❌ **Failed to download the video link.**" (some m) none, Ev.ack],
      insertOrReplace t1 rowFailed, false⟩

/-- The full message-event handler (lines 546-730): guard on target chat and
truthy message id, URL extraction, the dedup check against a done Job for
the same `url` (whose reply carries the `rerun:<prior>:<new>` affordance),
then the fresh-job path. -/
def handleMessage (table : List DRow) (chatIsTarget : Bool) (msgId : Option Nat)
    (text : Option String) (tmpDir : String) (statusMessageId : Option Nat)
    (downloadOk : Bool) (analysisResult : Except String String)
    (metaRes : Option Meta) (unlinkOk : Bool) : HandlerOut :=
  match msgId, chatIsTarget with
  | some m, true =>
    if m = 0 then ⟨[Ev.ack], table, false⟩
    else
      match (match text with | some s => extractFirstUrl s | none => none) with
      | none =>
        ⟨[Ev.send "No video link detected in your message." (some m) none, Ev.ack],
          table, false⟩
      | some url =>
        match lookupByUrl table url with
        | some row =>
          if row.status = "done" ∧ row.message_id ≠ 0 then
            ⟨[Ev.send "This link was already processed. Press to re-run." (some m)
                (some ("rerun:" ++ Nat.repr row.message_id ++ ":" ++ Nat.repr m)),
              Ev.ack], table, false⟩
          else
            mainPath table m url tmpDir statusMessageId downloadOk analysisResult
              metaRes unlinkOk
        | none =>
          mainPath table m url tmpDir statusMessageId downloadOk analysisResult
            metaRes unlinkOk
  | _, _ => ⟨[Ev.ack], table, false⟩

/-- The re-run callback path (lines 450-543): look up the prior job's URL by
the prior message id; if absent, answer the callback and stop; otherwise
answer, flip the status message, insert a fresh Job row under the new
message id with the same URL, download, mark done, analyze, clean up and
edit in the result, or edit in a failure notice on any error. -/
def handleRerun (table : List DRow) (prevId newId sid : Nat) (tmpDir : String)
    (downloadOk : Bool) (analysisResult : Except String String) : HandlerOut :=
  match (lookupByMsg table prevId).bind DRow.url with
  | none =>
    ⟨[Ev.answerCb (some "No URL found for previous analysis."), Ev.ack], table, false⟩
  | some url =>
    let filename := Nat.repr newId ++ ".mp4"
    let rowDownloading : DRow := ⟨newId, some filename, "downloading", some url⟩
    let t1 := insertOrReplace table rowDownloading
    let ev0 := [Ev.answerCb (some "Re-running analysis..."),
                Ev.edit sid "⏳ **Re-running analysis...**",
                Ev.dbWrite rowDownloading, Ev.download url]
    if downloadOk then
      let rowDone : DRow := ⟨newId, some filename, "done", some url⟩
      let t2 := insertOrReplace t1 rowDone
      match analysisResult with
      | .ok gemini =>
        ⟨ev0 ++ [Ev.dbWrite rowDone, Ev.analyze,
            Ev.unlinkAttempt (tmpDir ++ "/" ++ filename), Ev.edit sid gemini, Ev.ack],
          t2, false⟩
      | .error _ =>
        ⟨ev0 ++ [Ev.dbWrite rowDone, Ev.analyze,
            Ev.edit sid "❌ **Re-run failed. Please try again later.**", Ev.ack],
          t2, false⟩
    else
      ⟨ev0 ++ [Ev.edit sid "❌ **Re-run failed. Please try again later.**", Ev.ack],
        t1, false⟩

/-- Recognizes a file-deletion attempt in a trace. -/
def isUnlinkEv : Ev → Bool
  | .unlinkAttempt _ => true
  | _ => false

/-- The user-visible effects of a trace: chat sends and edits. -/
def userVisible (tr : List Ev) : List Ev :=
  tr.filter fun e =>
    match e with
    | .send _ _ _ => true
    | .edit _ _ => true
    | _ => false

/-- Recognizes one of the handler's user-visible failure notices. -/
def failNotice : Ev → Bool
  | .send t _ _ =>
    t == "❌ **Failed to analyze video with AI.**" ||
      t == "❌ **Failed to download the video link.**" ||
      t == "❌ **Re-run failed. Please try again later.**"
  | .edit _ t =>
    t == "❌ **Failed to analyze video with AI.**" ||
      t == "❌ **Failed to download the video link.**" ||
      t == "❌ **Re-run failed. Please try again later.**"
  | _ => false

/-- Claim C2 (code-bug evidence): on the success path the interval is
cleared strictly before the terminal edit, but on the analysis-failure path
no `clearInterval` ever runs — `statusInterval` is scoped to the inner
`try` and the catch block cannot reference it — so the heartbeat interval
is still live after the terminal failure edit and keeps firing. -/
theorem claim_C2_bug :
    ((handleMessage [] true (some 42) (some "see https://example.com/v/1")
        "tmp" (some 100) true (.ok "Summary.") none true).intervalLive = false ∧
      (handleMessage [] true (some 42) (some "see https://example.com/v/1")
        "tmp" (some 100) true (.ok "Summary.") none true).trace.indexOf
          Ev.clearIntervalEv <
        (handleMessage [] true (some 42) (some "see https://example.com/v/1")
          "tmp" (some 100) true (.ok "Summary.") none true).trace.indexOf
          (Ev.edit 100 (buildFinalText "Summary." "https://example.com/v/1" none))) ∧
    ((handleMessage [] true (some 42) (some "see https://example.com/v/1")
        "tmp" (some 100) true (.error "boom") none true).intervalLive = true ∧
      Ev.setIntervalEv ∈
        (handleMessage [] true (some 42) (some "see https://example.com/v/1")
          "tmp" (some 100) true (.error "boom") none true).trace ∧
      Ev.edit 100 "❌ **Failed to analyze video with AI.**" ∈
        (handleMessage [] true (some 42) (some "see https://example.com/v/1")
          "tmp" (some 100) true (.error "boom") none true).trace ∧
      Ev.clearIntervalEv ∉
        (handleMessage [] true (some 42) (some "see https://example.com/v/1")
          "tmp" (some 100) true (.error "boom") none true).trace) := by
  decide

/-- Counterexample to claim C3: after a download failure the Job row is
written without its `url` (it is no longer queryable by `url` and its url
field is NULL), and a successful re-run removes the original row (the new
row replaces it on the unique `url` index). -/
theorem claim_C3_counterexample :
    (lookupByUrl (mainPath [] 42 "https://example.com/v/1" "tmp" (some 100)
        false (.ok "x") none true).table "https://example.com/v/1" = none ∧
      lookupByMsg (mainPath [] 42 "https://example.com/v/1" "tmp" (some 100)
        false (.ok "x") none true).table 42 =
        some ⟨42, some "42.mp4", "failed", none⟩) ∧
    lookupByMsg (handleRerun
        [⟨42, some "42.mp4", "done", some "https://example.com/v/1"⟩]
        42 99 100 "tmp" true (.ok "y")).table 42 = none := by
  decide

/-- Counterexample to claim C4: on the download-failure exit no deletion of
the temporary file is attempted. -/
theorem claim_C4_counterexample :
    (handleMessage [] true (some 42) (some "see https://example.com/v/1")
      "tmp" (some 100) false (.ok "unused") none true).trace.any isUnlinkEv =
      false := by
  decide

/-- Counterexample to claim C5: the 200 acknowledgement is the last effect
of the handler, after the download, the analysis, and the reporting edits
have already run — not before them. -/
theorem claim_C5_counterexample :
    (handleMessage [] true (some 42) (some "see https://example.com/v/1")
      "tmp" (some 100) true (.ok "Summary.") none true).trace.getLast? =
        some Ev.ack ∧
    Ev.download "https://example.com/v/1" ∈
      (handleMessage [] true (some 42) (some "see https://example.com/v/1")
        "tmp" (some 100) true (.ok "Summary.") none true).trace.dropLast ∧
    Ev.analyze ∈
      (handleMessage [] true (some 42) (some "see https://example.com/v/1")
        "tmp" (some 100) true (.ok "Summary.") none true).trace.dropLast := by
  decide

theorem lookupByMsg_insert_self (t : List DRow) (r : DRow) :
    lookupByMsg (insertOrReplace t r) r.message_id = some r := by
  unfold lookupByMsg insertOrReplace
  rw [List.find?_append]
  have h1 : List.find? (fun q => q.message_id == r.message_id)
      (t.filter fun q => !conflicts q r) = none := by
    rw [List.find?_eq_none]
    intro q hq hbeq
    rw [List.mem_filter] at hq
    have hc := hq.2
    rw [Bool.not_eq_true'] at hc
    unfold conflicts at hc
    rw [hbeq] at hc
    simp at hc
  rw [h1]
  simp [List.find?]

theorem lookupByMsg_eq_none (t : List DRow) (x : Nat) :
    lookupByMsg t x = none ↔ ∀ q ∈ t, q.message_id ≠ x := by
  unfold lookupByMsg
  rw [List.find?_eq_none]
  simp

theorem nodup_insertOrReplace (t : List DRow) (r : DRow)
    (h1 : (t.map DRow.message_id).Nodup) (h2 : (t.filterMap DRow.url).Nodup) :
    ((insertOrReplace t r).map DRow.message_id).Nodup ∧
      ((insertOrReplace t r).filterMap DRow.url).Nodup := by
  constructor
  · unfold insertOrReplace
    rw [List.map_append, List.nodup_append]
    refine ⟨List.Nodup.sublist ((List.filter_sublist t).map DRow.message_id) h1,
      List.nodup_singleton _, ?_⟩
    intro a ha hb
    rw [List.mem_map] at ha
    obtain ⟨q, hq, rfl⟩ := ha
    rw [List.mem_filter] at hq
    have hc := hq.2
    rw [Bool.not_eq_true'] at hc
    unfold conflicts at hc
    simp only [List.map_cons, List.map_nil, List.mem_singleton] at hb
    rw [hb] at hc
    simp at hc
  · unfold insertOrReplace
    rw [List.filterMap_append]
    cases hu : r.url with
    | none =>
      simp only [List.filterMap_cons, hu, List.filterMap_nil, List.append_nil]
      exact List.Nodup.sublist ((List.filter_sublist t).filterMap DRow.url) h2
    | some u =>
      simp only [List.filterMap_cons, hu, List.filterMap_nil]
      rw [List.nodup_append]
      refine ⟨List.Nodup.sublist ((List.filter_sublist t).filterMap DRow.url) h2,
        List.nodup_singleton _, ?_⟩
      intro a ha hb
      rw [List.mem_filterMap] at ha
      obtain ⟨q, hq, hqu⟩ := ha
      rw [List.mem_filter] at hq
      have hc := hq.2
      rw [Bool.not_eq_true'] at hc
      unfold conflicts at hc
      simp only [List.mem_singleton] at hb
      rw [hb] at hqu
      rw [hqu, hu] at hc
      simp at hc

theorem claim_C3_amended_msg_sublist (t : List DRow) (r : DRow) :
    ∀ q ∈ insertOrReplace t r, q ∈ t ∨ q = r := by
  intro q hq
  unfold insertOrReplace at hq
  rw [List.mem_append] at hq
  rcases hq with hq | hq
  · exact Or.inl (List.mem_filter.mp hq).1
  · simp only [List.mem_singleton] at hq
    exact Or.inr hq

/-- Claim C3 amended: `INSERT OR REPLACE` keeps exactly one row per
`message_id` and one per non-NULL `url`, and a lookup by the fresh row's
`message_id` finds it; within one job the row moves downloading → done or
downloading → failed; but the download-failure write omits the `url` (the
failed row has a NULL url, so the job is queryable by `message_id` only),
and a successful re-run inserts its new row over the same `url`, which —
via the unique `url` index — removes the original row instead of keeping
both. -/
theorem claim_C3_amended :
    (∀ (t : List DRow) (r : DRow),
      (t.map DRow.message_id).Nodup → (t.filterMap DRow.url).Nodup →
      ((insertOrReplace t r).map DRow.message_id).Nodup ∧
        ((insertOrReplace t r).filterMap DRow.url).Nodup) ∧
    (∀ (t : List DRow) (r : DRow),
      lookupByMsg (insertOrReplace t r) r.message_id = some r) ∧
    (∀ (table : List DRow) (m : Nat) (url tmpDir : String) (sid : Option Nat)
        (ana : Except String String) (meta : Option Meta) (uOk : Bool),
      lookupByMsg (mainPath table m url tmpDir sid true ana meta uOk).table m =
        some ⟨m, some (Nat.repr m ++ ".mp4"), "done", some url⟩ ∧
      lookupByMsg (mainPath table m url tmpDir sid false ana meta uOk).table m =
        some ⟨m, some (Nat.repr m ++ ".mp4"), "failed", none⟩) ∧
    (∀ (table : List DRow) (prevId newId sid : Nat) (tmpDir : String)
        (ana : Except String String) (prow : DRow) (u : String),
      (table.map DRow.message_id).Nodup →
      lookupByMsg table prevId = some prow → prow.url = some u →
      prevId ≠ newId →
      lookupByMsg (handleRerun table prevId newId sid tmpDir true ana).table
          newId =
        some ⟨newId, some (Nat.repr newId ++ ".mp4"), "done", some u⟩ ∧
      lookupByMsg (handleRerun table prevId newId sid tmpDir true ana).table
          prevId = none) := by
  refine ⟨nodup_insertOrReplace, lookupByMsg_insert_self, ?_, ?_⟩
  · intro table m url tmpDir sid ana meta uOk
    constructor
    · cases ana <;>
        simpa [mainPath] using
          lookupByMsg_insert_self
            (insertOrReplace table ⟨m, some (Nat.repr m ++ ".mp4"), "downloading", some url⟩)
            ⟨m, some (Nat.repr m ++ ".mp4"), "done", some url⟩
    · simpa [mainPath] using
        lookupByMsg_insert_self
          (insertOrReplace table ⟨m, some (Nat.repr m ++ ".mp4"), "downloading", some url⟩)
          ⟨m, some (Nat.repr m ++ ".mp4"), "failed", none⟩
  · intro table prevId newId sid tmpDir ana prow u hnd hlook hurl hne
    have hbind : (lookupByMsg table prevId).bind DRow.url = some u := by
      rw [hlook]; exact hurl
    have hprowmem : prow ∈ table := List.mem_of_find?_eq_some hlook
    have hprowid : prow.message_id = prevId := by
      have := List.find?_some hlook
      simpa using this
    have htab : (handleRerun table prevId newId sid tmpDir true ana).table =
        insertOrReplace
          (insertOrReplace table ⟨newId, some (Nat.repr newId ++ ".mp4"), "downloading", some u⟩)
          ⟨newId, some (Nat.repr newId ++ ".mp4"), "done", some u⟩ := by
      cases ana <;> simp [handleRerun, hbind]
    constructor
    · rw [htab]
      exact lookupByMsg_insert_self _ _
    · rw [htab, lookupByMsg_eq_none]
      intro q hq
      rcases claim_C3_amended_msg_sublist _ _ q hq with hq1 | hq1
      · rcases claim_C3_amended_msg_sublist _ _ q hq1 with hq2 | hq2
        · -- q survived the first filter against the downloading row
          intro hqid
          have hq3 := hq2
          unfold insertOrReplace at hq1
          rw [List.mem_append] at hq1
          rcases hq1 with hq1 | hq1
          · rw [List.mem_filter] at hq1
            have hqeq : q = prow :=
              List.inj_on_of_nodup_map hnd hq1.1 hprowmem (by rw [hqid, hprowid])
            have hc := hq1.2
            rw [Bool.not_eq_true'] at hc
            unfold conflicts at hc
            rw [hqeq, hurl] at hc
            simp at hc
          · simp only [List.mem_singleton] at hq1
            rw [hq1] at hqid
            exact hne (by simpa using hqid.symm)
        · rw [hq2]
          intro h
          exact hne (by simpa using h.symm)
      · rw [hq1]
        intro h
        exact hne (by simpa using h.symm)

/-- Claim C4 amended: deletion of the temporary file is attempted on the
success and analysis-failure exits (the cleanup `finally` block), and a
failure of the deletion itself changes no user-visible output and still
lets the handler finish; on the download-failure exit no deletion is
attempted, since no file path was ever returned. -/
theorem claim_C4_amended (table : List DRow) (m : Nat) (url tmpDir : String)
    (sid : Option Nat) (ana : Except String String) (meta : Option Meta)
    (uOk : Bool) :
    Ev.unlinkAttempt (tmpDir ++ "/" ++ (Nat.repr m ++ ".mp4")) ∈
      (mainPath table m url tmpDir sid true ana meta uOk).trace ∧
    userVisible (mainPath table m url tmpDir sid true ana meta uOk).trace =
      userVisible (mainPath table m url tmpDir sid true ana meta true).trace ∧
    (mainPath table m url tmpDir sid true ana meta uOk).trace.getLast? =
      some Ev.ack ∧
    (mainPath table m url tmpDir sid false ana meta uOk).trace.any isUnlinkEv =
      false := by
  refine ⟨?_, ?_, ?_, ?_⟩
  · cases ana <;> cases sid <;> cases uOk <;> simp [mainPath]
  · cases ana <;> cases sid <;> cases uOk <;> simp [mainPath, userVisible]
  · cases ana <;> cases sid <;> cases uOk <;> simp [mainPath]
  · cases ana <;> cases sid <;> cases uOk <;> simp [mainPath, isUnlinkEv]

/-- Witness for the amended claim C4 at a concrete job. -/
theorem claim_C4_amended_witness :
    Ev.unlinkAttempt ("tmp" ++ "/" ++ (Nat.repr 42 ++ ".mp4")) ∈
      (mainPath [] 42 "https://example.com/v/1" "tmp" (some 100) true
        (.error "boom") none false).trace ∧
    userVisible (mainPath [] 42 "https://example.com/v/1" "tmp" (some 100) true
        (.error "boom") none false).trace =
      userVisible (mainPath [] 42 "https://example.com/v/1" "tmp" (some 100) true
        (.error "boom") none true).trace ∧
    (mainPath [] 42 "https://example.com/v/1" "tmp" (some 100) true
      (.error "boom") none false).trace.getLast? = some Ev.ack ∧
    (mainPath [] 42 "https://example.com/v/1" "tmp" (some 100) false
      (.error "boom") none false).trace.any isUnlinkEv = false :=
  claim_C4_amended [] 42 "https://example.com/v/1" "tmp" (some 100)
    (.error "boom") none false

/-- Claim C5 amended: the 200 acknowledgement is the handler's last effect
on every path — it is issued only after the download, analysis and
reporting work has completed, not before it — and download or analysis
failures are converted into exactly one user-visible failure notice rather
than propagated. -/
theorem claim_C5_amended (table : List DRow) (chat : Bool) (msgId : Option Nat)
    (text : Option String) (m prevId newId csid : Nat) (url tmpDir e : String)
    (sid : Option Nat) (dOk : Bool) (ana : Except String String)
    (meta : Option Meta) (uOk : Bool) :
    (handleMessage table chat msgId text tmpDir sid dOk ana meta uOk).trace.getLast? =
      some Ev.ack ∧
    (handleRerun table prevId newId csid tmpDir dOk ana).trace.getLast? =
      some Ev.ack ∧
    (mainPath table m url tmpDir sid true (.error e) meta uOk).trace.countP
      failNotice = 1 ∧
    (mainPath table m url tmpDir sid false ana meta uOk).trace.countP
      failNotice = 1 := by
  refine ⟨?_, ?_, ?_, ?_⟩
  · have hmain : ∀ m' url',
        (mainPath table m' url' tmpDir sid dOk ana meta uOk).trace.getLast? =
          some Ev.ack := by
      intro m' url'
      cases dOk <;> cases ana <;> cases sid <;> cases uOk <;> simp [mainPath]
    cases msgId with
    | none => cases chat <;> simp [handleMessage]
    | some m' =>
      cases chat
      · simp [handleMessage]
      · by_cases hm : m' = 0
        · simp [handleMessage, hm]
        · cases hu : (match text with | some s => extractFirstUrl s | none => none) with
          | none => simp [handleMessage, hm, hu]
          | some url' =>
            cases hlook : lookupByUrl table url' with
            | none => simp [handleMessage, hm, hu, hlook, hmain]
            | some row =>
              by_cases hif : row.status = "done" ∧ row.message_id ≠ 0 <;>
                simp [handleMessage, hm, hu, hlook, hif, hmain]
  · cases hb : (lookupByMsg table prevId).bind DRow.url with
    | none => simp [handleRerun, hb]
    | some url' => cases dOk <;> cases ana <;> simp [handleRerun, hb]
  · cases sid <;> cases uOk <;> simp [mainPath, List.countP_cons, failNotice]
  · cases ana <;> cases sid <;> cases uOk <;>
      simp [mainPath, List.countP_cons, failNotice]

/-- Witness for the amended claim C5 at a concrete failing job. -/
theorem claim_C5_amended_witness :
    (handleMessage [] true (some 42) (some "see https://example.com/v/1")
      "tmp" (some 100) true (.error "boom") none true).trace.getLast? =
        some Ev.ack ∧
    (handleRerun [] 42 99 100 "tmp" true (.error "boom")).trace.getLast? =
      some Ev.ack ∧
    (mainPath [] 42 "https://example.com/v/1" "tmp" (some 100) true
      (.error "boom") none true).trace.countP failNotice = 1 ∧
    (mainPath [] 42 "https://example.com/v/1" "tmp" (some 100) false
      (.error "boom") none true).trace.countP failNotice = 1 :=
  claim_C5_amended [] true (some 42) (some "see https://example.com/v/1")
    42 42 99 100 "https://example.com/v/1" "tmp" "boom" (some 100) true
    (.error "boom") none true

theorem toList_append (x y : String) : (x ++ y).toList = x.toList ++ y.toList := by
  cases x; cases y; rfl

theorem digitChar_isDigit (n : Nat) (h : n < 10) : (Nat.digitChar n).isDigit = true := by
  interval_cases n <;> decide

theorem toDigitsCore_digits :
    ∀ (fuel n : Nat) (ds : List Char), (∀ c ∈ ds, c.isDigit = true) →
      ∀ c ∈ Nat.toDigitsCore 10 fuel n ds, c.isDigit = true := by
  intro fuel
  induction fuel with
  | zero =>
    intro n ds hds c hc
    exact hds c (by simpa [Nat.toDigitsCore] using hc)
  | succ f ih =>
    intro n ds hds c hc
    simp only [Nat.toDigitsCore] at hc
    have hmem : ∀ x ∈ Nat.digitChar (n % 10) :: ds, x.isDigit = true := by
      intro x hx
      rcases List.mem_cons.mp hx with rfl | hx
      · exact digitChar_isDigit _ (Nat.mod_lt n (by norm_num))
      · exact hds x hx
    by_cases h0 : n / 10 = 0
    · rw [if_pos h0] at hc
      exact hmem c hc
    · rw [if_neg h0] at hc
      exact ih (n / 10) _ hmem c hc

theorem repr_digits (n : Nat) : ∀ c ∈ (Nat.repr n).toList, c.isDigit = true := by
  intro c hc
  have hrepr : (Nat.repr n).toList = Nat.toDigitsCore 10 (n + 1) n [] := rfl
  rw [hrepr] at hc
  exact toDigitsCore_digits (n + 1) n [] (by simp) c hc

/-- The re-run callback payload is made only of "rerun", colons and decimal
digits: it cannot contain the character opening an extracted URL. -/
theorem payload_no_h (a b : Nat) :
    'h' ∉ ("rerun:" ++ Nat.repr a ++ ":" ++ Nat.repr b).toList := by
  intro hmem
  rw [toList_append, toList_append, toList_append] at hmem
  simp only [List.mem_append] at hmem
  rcases hmem with ((h1 | h2) | h3) | h4
  · exact absurd h1 (by decide)
  · exact absurd (repr_digits a 'h' h2) (by decide)
  · exact absurd h3 (by decide)
  · exact absurd (repr_digits b 'h' h4) (by decide)

theorem dropWhile_concat_ne (p : Char → Bool) (a : Char) (ha : p a = false) :
    ∀ m : List Char, ∃ q, List.dropWhile p (m ++ [a]) = q ++ [a] := by
  intro m
  induction m with
  | nil => exact ⟨[], by simp [List.dropWhile, ha]⟩
  | cons x m' ih =>
    by_cases hx : p x = true
    · obtain ⟨q, hq⟩ := ih
      exact ⟨q, by simp [List.dropWhile, hx, hq]⟩
    · exact ⟨x :: m', by simp [List.dropWhile, hx]⟩

theorem stripTrailing_head (a : Char) (l : List Char) (ha : isCloser a = false) :
    ∃ t, stripTrailing (a :: l) = a :: t := by
  unfold stripTrailing
  obtain ⟨q, hq⟩ := dropWhile_concat_ne isCloser a ha l.reverse
  refine ⟨q.reverse, ?_⟩
  rw [show (a :: l).reverse = l.reverse ++ [a] from by simp, hq, List.reverse_concat]

theorem startsWithL_head {a : Char} {pre l : List Char}
    (h : startsWithL (a :: pre) l = true) : ∃ t, l = a :: t := by
  cases l with
  | nil => simp [startsWithL] at h
  | cons b t =>
    simp only [startsWithL, Bool.and_eq_true, beq_iff_eq] at h
    exact ⟨t, by rw [h.1]⟩

theorem urlFrom_head (l run : List Char) (h : urlFrom l = some run) :
    ∃ rest, run = 'h' :: rest := by
  simp only [urlFrom] at h
  split at h
  · rename_i hc
    simp only [Option.some.injEq] at h
    subst h
    have hl : ∃ t, l = 'h' :: t := by
      rcases hc with ⟨hs, -⟩ | ⟨hs, -⟩
      · rw [show "http://".toList = 'h' :: "ttp://".toList from rfl] at hs
        exact startsWithL_head hs
      · rw [show "https://".toList = 'h' :: "ttps://".toList from rfl] at hs
        exact startsWithL_head hs
    obtain ⟨t, rfl⟩ := hl
    rw [List.takeWhile_cons, if_pos (by decide)]
    exact ⟨_, rfl⟩
  · exact absurd h (by simp)

theorem findUrl_head : ∀ (l run : List Char), findUrl l = some run →
    ∃ rest, run = 'h' :: rest := by
  intro l
  induction l with
  | nil => intro run h; simp [findUrl] at h
  | cons c rest ih =>
    intro run h
    cases hu : urlFrom (c :: rest) with
    | some r2 =>
      simp only [findUrl, hu, Option.some.injEq] at h
      exact h ▸ urlFrom_head _ _ hu
    | none =>
      simp only [findUrl, hu] at h
      exact ih run h

theorem extractFirstUrl_head (s u : String) (h : extractFirstUrl s = some u) :
    ∃ t, u.toList = 'h' :: t := by
  unfold extractFirstUrl at h
  cases hf : findUrl s.toList with
  | none => rw [hf] at h; simp at h
  | some run =>
    rw [hf] at h
    simp only [Option.map_some', Option.some.injEq] at h
    obtain ⟨rest, rfl⟩ := findUrl_head _ _ hf
    obtain ⟨t, ht⟩ := stripTrailing_head 'h' rest (by decide)
    refine ⟨t, ?_⟩
    rw [← h,
        show (String.mk (stripTrailing ('h' :: rest))).toList =
          stripTrailing ('h' :: rest) from rfl,
        ht]

/-- Claim C6: a message event whose extracted URL already has a done Job
row starts no download and writes no Job row; the handler's only effects
are the "already processed" reply — whose inline affordance encodes exactly
`rerun:<priorMessageId>:<newMessageId>` and never contains the raw URL —
and the acknowledgement. -/
theorem claim_C6 (table : List DRow) (m : Nat) (text url tmpDir : String)
    (sid : Option Nat) (dOk : Bool) (ana : Except String String)
    (meta : Option Meta) (uOk : Bool) (row : DRow)
    (hm : m ≠ 0)
    (hurl : extractFirstUrl text = some url)
    (hlook : lookupByUrl table url = some row)
    (hdone : row.status = "done") (hpz : row.message_id ≠ 0) :
    handleMessage table true (some m) (some text) tmpDir sid dOk ana meta uOk =
      ⟨[Ev.send "This link was already processed. Press to re-run." (some m)
          (some ("rerun:" ++ Nat.repr row.message_id ++ ":" ++ Nat.repr m)),
        Ev.ack], table, false⟩ ∧
    ¬ OccursIn url.toList
      ("rerun:" ++ Nat.repr row.message_id ++ ":" ++ Nat.repr m).toList := by
  constructor
  · simp [handleMessage, hm, hurl, hlook, hdone, hpz]
  · intro hocc
    obtain ⟨s1, s2, hsplit⟩ := hocc
    obtain ⟨t, ht⟩ := extractFirstUrl_head text url hurl
    have hh : 'h' ∈
        ("rerun:" ++ Nat.repr row.message_id ++ ":" ++ Nat.repr m).toList := by
      rw [hsplit, ht]
      simp
    exact payload_no_h _ _ hh

/-- Witness for claim C6 at a concrete already-processed link. -/
theorem claim_C6_witness :
    handleMessage [⟨7, some "7.mp4", "done", some "https://example.com/v/1"⟩]
        true (some 42) (some "see https://example.com/v/1") "tmp" (some 100)
        true (.ok "x") none true =
      ⟨[Ev.send "This link was already processed. Press to re-run." (some 42)
          (some ("rerun:" ++ Nat.repr 7 ++ ":" ++ Nat.repr 42)), Ev.ack],
        [⟨7, some "7.mp4", "done", some "https://example.com/v/1"⟩], false⟩ ∧
    ¬ OccursIn "https://example.com/v/1".toList
      ("rerun:" ++ Nat.repr 7 ++ ":" ++ Nat.repr 42).toList :=
  claim_C6 [⟨7, some "7.mp4", "done", some "https://example.com/v/1"⟩] 42
    "see https://example.com/v/1" "https://example.com/v/1" "tmp" (some 100)
    true (.ok "x") none true ⟨7, some "7.mp4", "done", some "https://example.com/v/1"⟩
    (by decide) (by decide) (by decide) rfl (by decide)

/-- Witness for the amended claim C3 at a concrete re-run. -/
theorem claim_C3_amended_witness :
    lookupByMsg (handleRerun
        [⟨42, some "42.mp4", "done", some "https://example.com/v/1"⟩]
        42 99 100 "tmp" true (.ok "y")).table 99 =
      some ⟨99, some (Nat.repr 99 ++ ".mp4"), "done", some "https://example.com/v/1"⟩ ∧
    lookupByMsg (handleRerun
        [⟨42, some "42.mp4", "done", some "https://example.com/v/1"⟩]
        42 99 100 "tmp" true (.ok "y")).table 42 = none :=
  claim_C3_amended.2.2.2
    [⟨42, some "42.mp4", "done", some "https://example.com/v/1"⟩]
    42 99 100 "tmp" (.ok "y")
    ⟨42, some "42.mp4", "done", some "https://example.com/v/1"⟩
    "https://example.com/v/1" (by decide) (by decide) rfl (by decide)

end TgBot
